import Mathlib

/-!
Verification of the version-reconciliation and library-type-detection core of
ce-library-wizard, shallowly embedded from the Python sources.

Text is modelled as `List Char` (`Str`); Python string primitives
(`startswith`, `in`, `str.replace`, `re.search` on literal-like patterns,
`split`, `strip`, `endswith`) are given executable Lean counterparts.
Network oracles (git-tag existence, the Go module proxy) are passed in as
function parameters, as the claims take their answers as hypotheses.
-/

namespace CeLibWizard

abbrev Str := List Char

/-- Boolean counterpart of Python `s.startswith(p)`: `isPre p s` is true when
`p` begins `s`. -/
def isPre : Str → Str → Bool
  | [], _ => true
  | _ :: _, [] => false
  | a :: as, b :: bs => a == b && isPre as bs

/-- Boolean counterpart of Python `needle in hay` on strings. -/
def hasSub (needle : Str) : Str → Bool
  | [] => needle.isEmpty
  | c :: rest => isPre needle (c :: rest) || hasSub needle rest

theorem isPre_iff (p s : Str) : isPre p s = true ↔ ∃ t, s = p ++ t := by
  induction p generalizing s with
  | nil => simp [isPre]
  | cons a as ih =>
    cases s with
    | nil => simp [isPre]
    | cons b bs =>
      simp only [isPre, Bool.and_eq_true, beq_iff_eq, ih, List.cons_append,
        List.cons.injEq]
      constructor
      · rintro ⟨rfl, t, rfl⟩; exact ⟨t, rfl, rfl⟩
      · rintro ⟨t, rfl, rfl⟩; exact ⟨rfl, t, rfl⟩

theorem isPre_refl (p : Str) : isPre p p = true :=
  (isPre_iff p p).2 ⟨[], (List.append_nil p).symm⟩

theorem isPre_append (p s t : Str) (h : isPre p s = true) :
    isPre p (s ++ t) = true := by
  rcases (isPre_iff p s).1 h with ⟨u, rfl⟩
  exact (isPre_iff _ _).2 ⟨u ++ t, by simp⟩

theorem isPre_length_le (p s : Str) (h : isPre p s = true) :
    p.length ≤ s.length := by
  rcases (isPre_iff p s).1 h with ⟨u, rfl⟩
  simp

theorem hasSub_of_append_right (needle pre : Str) :
    hasSub needle (pre ++ needle) = true := by
  induction pre with
  | nil =>
    cases needle with
    | nil => simp [hasSub]
    | cons c cs => simp [hasSub, isPre_refl]
  | cons c p ih =>
    simp [hasSub, ih]

/-! ## VersionResolver: `determine_version_format` (src/core/models.py) -/

/--
Shallow embedding of `determine_version_format(repo_url, version)`.
`tagExists tag` stands for `check_git_tag_exists(repo_url, tag)` — the live
GitHub-release / `git ls-remote` probe — for the fixed `repo_url`, taken as
an oracle.  Returns `(normalized_version, target_prefix, version_exists)`;
the `target_prefix` field is the source's `target_prefix` value.
-/
def determine_version_format (tagExists : Str → Bool) (repo_url version : Str) :
    Str × Option Str × Bool :=
  if repo_url.isEmpty then
    -- no repo URL: just normalize by removing a leading 'v'
    if isPre ['v'] version then (version.drop 1, some ['v'], false)
    else (version, none, false)
  else if isPre ['v'] version then
    -- user entered v1.2.3: check v1.2.3 first, then 1.2.3
    if tagExists version then (version.drop 1, some ['v'], true)
    else if tagExists (version.drop 1) then (version.drop 1, none, true)
    else (version.drop 1, some ['v'], false)
  else
    -- user entered 1.2.3: check v1.2.3 first, then 1.2.3
    if tagExists ('v' :: version) then (version, some ['v'], true)
    else if tagExists version then (version, none, true)
    else (version, none, false)

/-! ## LibraryTypeResolver: `detect_library_type_from_analysis`
(src/core/library_utils.py) -/

inductive LibraryType where
  | headerOnly
  | packagedHeaders
  | staticLib
  | sharedLib
  | csharedLib
deriving DecidableEq

/-- The `.value` strings of the Python `LibraryType` enum. -/
def LibraryType.value : LibraryType → Str
  | .headerOnly => "header-only".data
  | .packagedHeaders => "packaged-headers".data
  | .staticLib => "static".data
  | .sharedLib => "shared".data
  | .csharedLib => "cshared".data

/-- One entry of the `libraries.yaml` catalogue, as consumed by this core:
the `url`, `repo`, `type` and `build_type` fields of the YAML mapping
(`none` models both an absent key and a YAML `null`). -/
structure LibEntry where
  url : Option Str
  repo : Option Str
  type : Option Str
  build_type : Option Str
deriving DecidableEq

/-- The analysis dict built by `analyze_repository_structure`. -/
structure RepoAnalysis where
  has_cmake : Bool
  cmake_targets : Option (List Str)
  main_targets : Option (List Str)

/--
Shallow embedding of `detect_library_type_from_analysis(analysis,
existing_config)`.  A present, non-empty Python config dict is modelled as
`some cfg` (the `if existing_config:` truthiness test; an entry carrying any
of the fields below is a non-empty dict).  Returns `(is_valid,
library_type_value)`.
-/
def detect_library_type_from_analysis (analysis : RepoAnalysis)
    (existing_config : Option LibEntry) : Bool × Option Str :=
  let fresh : Bool × Option Str :=
    if analysis.has_cmake then (true, some LibraryType.packagedHeaders.value)
    else (true, some LibraryType.headerOnly.value)
  match existing_config with
  | none => fresh
  | some cfg =>
    if cfg.build_type = some "none".data then
      (true, some LibraryType.headerOnly.value)
    else if cfg.type = some "header-only".data then
      (true, some LibraryType.headerOnly.value)
    else if cfg.type = some "packaged-headers".data then
      (true, some LibraryType.packagedHeaders.value)
    else if cfg.type = some "static".data then
      (true, some LibraryType.staticLib.value)
    else if cfg.type = some "shared".data then
      (true, some LibraryType.sharedLib.value)
    else if cfg.type = some "cshared".data then
      (true, some LibraryType.csharedLib.value)
    else if cfg.type = some "github".data ∧ cfg.build_type = none then
      (true, some LibraryType.headerOnly.value)
    else fresh

/-! ## Claim theorems (first batch) -/

/-- C1: `determine_version_format` at a non-empty repo URL: a `v`-prefixed
input whose `v`-prefixed tag exists resolves to `(bare, "v", true)`, and a
bare input whose `v`-prefixed tag exists also resolves to
`(bare, "v", true)`. -/
theorem claim_C1_determine_version_format (tagExists : Str → Bool)
    (repo_url version : Str) (hrepo : repo_url ≠ []) :
    (isPre ['v'] version = true → tagExists version = true →
      determine_version_format tagExists repo_url version =
        (version.drop 1, some ['v'], true)) ∧
    (isPre ['v'] version = false → tagExists ('v' :: version) = true →
      determine_version_format tagExists repo_url version =
        (version, some ['v'], true)) := by
  have hne : repo_url.isEmpty = false := by
    cases repo_url with
    | nil => exact absurd rfl hrepo
    | cons c cs => rfl
  constructor
  · intro hv htag
    simp [determine_version_format, hne, hv, htag]
  · intro hv htag
    simp [determine_version_format, hne, hv, htag]

/-- Witness for C1: version `"1.2.3"`, repository owning only tag `v1.2.3`
(the spec's scenario). -/
theorem claim_C1_witness :
    (isPre ['v'] "1.2.3".data = false ∧
      (fun t => t == "v1.2.3".data) ('v' :: "1.2.3".data) = true) ∧
    determine_version_format (fun t => t == "v1.2.3".data)
      "https://github.com/acme/widget".data "1.2.3".data =
      ("1.2.3".data, some ['v'], true) :=
  ⟨⟨by decide, by decide⟩,
    (claim_C1_determine_version_format (fun t => t == "v1.2.3".data)
      "https://github.com/acme/widget".data "1.2.3".data (by decide)).2
      (by decide) (by decide)⟩

/-- C5: an existing catalogue entry with `build_type == "none"` always
resolves to header-only, whatever the repository analysis says. -/
theorem claim_C5_build_type_none_header_only (analysis : RepoAnalysis)
    (cfg : LibEntry) (h : cfg.build_type = some "none".data) :
    detect_library_type_from_analysis analysis (some cfg) =
      (true, some "header-only".data) := by
  simp [detect_library_type_from_analysis, h, LibraryType.value]

/-- Witness for C5: an entry recorded with `build_type: none` and an analysis
that did find a CMake manifest still yields header-only. -/
theorem claim_C5_witness :
    (LibEntry.build_type ⟨none, none, some "github".data, some "none".data⟩ =
      some "none".data) ∧
    detect_library_type_from_analysis ⟨true, some [], some []⟩
      (some ⟨none, none, some "github".data, some "none".data⟩) =
      (true, some "header-only".data) :=
  ⟨rfl, claim_C5_build_type_none_header_only ⟨true, some [], some []⟩
    ⟨none, none, some "github".data, some "none".data⟩ rfl⟩

/-! ## GoModuleResolver: `resolve_go_module`, `_pick_best_subpackage`
(src/core/go_handler.py) -/

/-- Split a string at every occurrence of `sep`, Python `s.split(sep)` for a
single-character separator (empty pieces are kept). -/
def splitOnChar (sep : Char) : Str → List Str
  | [] => [[]]
  | c :: rest =>
    if c = sep then [] :: splitOnChar sep rest
    else
      match splitOnChar sep rest with
      | [] => [[c]]
      | l :: ls => (c :: l) :: ls

/-- Python `"/".join(parts)`. -/
def joinSlash (parts : List Str) : Str := List.intercalate ['/'] parts

/-- The `if not version.startswith("v"): version = f"v{version}"`
normalization applied throughout the Go handler. -/
def normV (version : Str) : Str :=
  if isPre ['v'] version then version else 'v' :: version

/--
Shallow embedding of `validate_go_module_version(module_path, version)`.
`proxyHas m v` stands for the Go module proxy answering HTTP 200 on
`{proxy}/{m}/@v/{v}.info`; of the Python `(exists, error_message)` pair only
the existence component is modelled, the only one `resolve_go_module`
consumes.
-/
def validate_go_module_version (proxyHas : Str → Str → Bool)
    (module_path version : Str) : Bool :=
  proxyHas module_path (normV version)

/-- One fuelled unrolling of the `while len(parts) > 2` loop of
`resolve_go_module`; each iteration removes one path segment, so the
caller's `parts.length` bounds the iteration count and serves as structural
fuel (the fuel never runs out while `len(parts) > 2`). -/
def walkUpFuel (oracle : Str → Bool) (original : Str) :
    Nat → List Str → Str × Option Str
  | 0, _ => (original, none)
  | fuel + 1, parts =>
    if parts.length > 2 then
      if oracle (joinSlash parts.dropLast) then
        (joinSlash parts.dropLast, some original)
      else walkUpFuel oracle original fuel parts.dropLast
    else (original, none)

/-- The `while len(parts) > 2` walk-up loop of `resolve_go_module`, with
`original` the untruncated input path; `joinSlash parts.dropLast` is the
loop's `candidate`. -/
def walkUp (oracle : Str → Bool) (original : Str) (parts : List Str) :
    Str × Option Str :=
  walkUpFuel oracle original parts.length parts

/-- Shallow embedding of `resolve_go_module(module_path, version)`: returns
`(actual_module_path, import_path_or_none)`. -/
def resolve_go_module (proxyHas : Str → Str → Bool)
    (module_path version : Str) : Str × Option Str :=
  let v := normV version
  if validate_go_module_version proxyHas module_path v then (module_path, none)
  else
    walkUp (fun c => validate_go_module_version proxyHas c v) module_path
      (splitOnChar '/' module_path)

/-- Fuelled companion of `walkUpFuel`: the truncated candidate paths the
loop probes, in probe order. -/
def walkCandidatesFuel : Nat → List Str → List Str
  | 0, _ => []
  | fuel + 1, parts =>
    if parts.length > 2 then
      joinSlash parts.dropLast :: walkCandidatesFuel fuel parts.dropLast
    else []

/-- The truncated candidate paths the walk-up loop probes, in probe order. -/
def walkCandidates (parts : List Str) : List Str :=
  walkCandidatesFuel parts.length parts

theorem walkUpFuel_eq_find (oracle : Str → Bool) (original : Str)
    (fuel : Nat) :
    ∀ parts : List Str,
      walkUpFuel oracle original fuel parts =
        (match (walkCandidatesFuel fuel parts).find? oracle with
         | some c => (c, some original)
         | none => (original, none)) := by
  induction fuel with
  | zero => intro parts; rfl
  | succ n ih =>
    intro parts
    simp only [walkUpFuel, walkCandidatesFuel]
    by_cases h : parts.length > 2
    · rw [if_pos h, if_pos h]
      by_cases hc : oracle (joinSlash parts.dropLast) = true
      · rw [if_pos hc, List.find?_cons_of_pos _ hc]
      · rw [if_neg hc, List.find?_cons_of_neg _ hc]
        exact ih parts.dropLast
    · rw [if_neg h, if_neg h]
      rfl

theorem walkUp_eq_find (oracle : Str → Bool) (original : Str)
    (parts : List Str) :
    walkUp oracle original parts =
      (match (walkCandidates parts).find? oracle with
       | some c => (c, some original)
       | none => (original, none)) :=
  walkUpFuel_eq_find oracle original parts.length parts

/-! ### Subpackage selection -/

/-- Python `s.rstrip("/")`. -/
def rstripSlash (s : Str) : Str :=
  (s.reverse.dropWhile (fun c => c == '/')).reverse

/-- Python `parts[-1]` on a non-empty list (the result of `split` is never
empty). -/
def lastD (l : List Str) : Str := l.getLastD []

/-- Python `s.lower()`. -/
def toLowerS (s : Str) : Str := s.map Char.toLower

/-- Python string `<`: lexicographic comparison by code point. -/
def ltStr : Str → Str → Bool
  | [], [] => false
  | [], _ :: _ => true
  | _ :: _, [] => false
  | a :: as, b :: bs =>
    if a.toNat < b.toNat then true
    else if b.toNat < a.toNat then false
    else ltStr as bs

def insertSorted (x : Str) : List Str → List Str
  | [] => [x]
  | y :: ys => if ltStr y x then y :: insertSorted x ys else x :: y :: ys

/-- Python `sorted` on a collection of strings. -/
def sortStr : List Str → List Str
  | [] => []
  | x :: xs => insertSorted x (sortStr xs)

/-- The strict order underlying `min(candidates, key=lambda s: (len(s), s))`:
shorter first, code-point order on ties. -/
def keyLt (a b : Str) : Bool :=
  a.length < b.length || (a.length == b.length && ltStr a b)

/-- One comparison step of Python `min`: keep the incumbent unless the new
element is strictly smaller under the key. -/
def minStep (best y : Str) : Str := if keyLt y best then y else best

/-- Python `min(l, key=lambda s: (len(s), s))`; `none` models the
`ValueError` Python raises on an empty sequence (the source only calls it
with a non-empty candidate set). -/
def pyMin : List Str → Option Str
  | [] => none
  | x :: xs => some (xs.foldl minStep x)

/--
Shallow embedding of `_pick_best_subpackage(module_path, subpackages)`:
first candidate (in sorted order) whose lowercased name is a prefix of the
module's lowercased last path segment or vice versa, else the minimum under
`(len, name)`.
-/
def _pick_best_subpackage (module_path : Str) (subpackages : List Str) :
    Option Str :=
  let module_name := toLowerS (lastD (splitOnChar '/' (rstripSlash module_path)))
  let candidates := sortStr subpackages
  match candidates.find? (fun sub =>
      isPre (toLowerS sub) module_name || isPre module_name (toLowerS sub)) with
  | some sub => some sub
  | none => pyMin candidates

/-! ### Order lemmas for the sort and the keyed minimum -/

theorem ltStr_irrefl (a : Str) : ltStr a a = false := by
  induction a with
  | nil => rfl
  | cons c cs ih => simp [ltStr, ih]

theorem ltStr_nil_of_ne (b : Str) (h : b ≠ []) : ltStr [] b = true := by
  cases b with
  | nil => exact absurd rfl h
  | cons c cs => rfl

theorem ltStr_cotrans (a c : Str) (h : ltStr a c = true) (b : Str) :
    ltStr a b = true ∨ ltStr b c = true := by
  induction a generalizing b c with
  | nil =>
    cases c with
    | nil => simp [ltStr] at h
    | cons z zs =>
      cases b with
      | nil => right; exact h
      | cons y ys => left; rfl
  | cons x xs ih =>
    cases c with
    | nil => simp [ltStr] at h
    | cons z zs =>
      cases b with
      | nil => right; rfl
      | cons y ys =>
        simp only [ltStr] at h ⊢
        by_cases hxy : x.toNat < y.toNat
        · left; simp [hxy]
        · by_cases hyz : y.toNat < z.toNat
          · right; simp [hyz]
          · by_cases hxz : x.toNat < z.toNat
            · omega
            · by_cases hzx : z.toNat < x.toNat
              · simp [hxz, hzx] at h
              · have hyx : ¬ y.toNat < x.toNat := by omega
                have hzy : ¬ z.toNat < y.toNat := by omega
                simp only [hxz, hzx, if_false] at h
                rcases ih zs h ys with h' | h'
                · left; simp [hxy, hyx, h']
                · right; simp [hyz, hzy, h']

theorem keyLt_irrefl (a : Str) : keyLt a a = false := by
  simp [keyLt, ltStr_irrefl]

theorem keyLt_cotrans (a c : Str) (h : keyLt a c = true) (b : Str) :
    keyLt a b = true ∨ keyLt b c = true := by
  simp only [keyLt, Bool.or_eq_true, Bool.and_eq_true, beq_iff_eq,
    decide_eq_true_eq] at h ⊢
  rcases h with h | ⟨hlen, hlt⟩
  · by_cases hab : a.length < b.length
    · left; left; exact hab
    · right; left; omega
  · by_cases hab : a.length < b.length
    · left; left; exact hab
    · by_cases hbc : b.length < c.length
      · right; left; exact hbc
      · have hlab : a.length = b.length := by omega
        have hlbc : b.length = c.length := by omega
        rcases ltStr_cotrans a c hlt b with h' | h'
        · left; right; exact ⟨hlab, h'⟩
        · right; right; exact ⟨hlbc, h'⟩

theorem ltStr_asym (a b : Str) (h : ltStr a b = true) : ltStr b a = false := by
  induction a generalizing b with
  | nil =>
    cases b with
    | nil => simp [ltStr] at h
    | cons z zs => rfl
  | cons x xs ih =>
    cases b with
    | nil => simp [ltStr] at h
    | cons z zs =>
      simp only [ltStr] at h ⊢
      by_cases hxz : x.toNat < z.toNat
      · have hzx : ¬ z.toNat < x.toNat := by omega
        simp [hzx, hxz]
      · by_cases hzx : z.toNat < x.toNat
        · simp [hxz, hzx] at h
        · simp only [hxz, hzx, if_false] at h ⊢
          exact ih zs h

theorem keyLt_asym (a b : Str) (h : keyLt a b = true) : keyLt b a = false := by
  simp only [keyLt, Bool.or_eq_true, Bool.and_eq_true, beq_iff_eq,
    decide_eq_true_eq] at h
  simp only [keyLt, Bool.or_eq_false_iff, Bool.and_eq_false_iff]
  rcases h with h | ⟨hlen, hlt⟩
  · constructor
    · simp; omega
    · left; simp; omega
  · constructor
    · simp; omega
    · right; exact ltStr_asym a b hlt

theorem minStep_pos {b y : Str} (hk : keyLt y b = true) : minStep b y = y := by
  unfold minStep
  rw [if_pos hk]

theorem minStep_neg {b y : Str} (hk : ¬ keyLt y b = true) : minStep b y = b := by
  unfold minStep
  rw [if_neg hk]

theorem pyMin_foldl_spec (xs : List Str) (b : Str) :
    xs.foldl minStep b ∈ b :: xs ∧
      ∀ y ∈ b :: xs, keyLt y (xs.foldl minStep b) = false := by
  induction xs generalizing b with
  | nil =>
    refine ⟨List.mem_cons_self b [], ?_⟩
    intro y hy
    rcases List.mem_cons.mp hy with rfl | h
    · exact keyLt_irrefl y
    · exact absurd h (List.not_mem_nil y)
  | cons y ys ih =>
    rw [List.foldl_cons]
    rcases ih (minStep b y) with ⟨hmem, hmin⟩
    have hstep : keyLt (minStep b y) (ys.foldl minStep (minStep b y)) = false :=
      hmin _ (List.mem_cons_self _ ys)
    constructor
    · rcases List.mem_cons.mp hmem with heq | hmem'
      · rw [heq]
        by_cases hk : keyLt y b = true
        · rw [minStep_pos hk]
          exact List.mem_cons.mpr (Or.inr (List.mem_cons_self y ys))
        · rw [minStep_neg hk]
          exact List.mem_cons_self b _
      · exact List.mem_cons.mpr (Or.inr (List.mem_cons.mpr (Or.inr hmem')))
    · intro z hz
      rcases List.mem_cons.mp hz with hzb | hz'
      · -- the incumbent `z = b`
        subst hzb
        by_cases hk : keyLt y z = true
        · rw [minStep_pos hk] at hstep ⊢
          cases hbr : keyLt z (ys.foldl minStep y) with
          | false => rfl
          | true =>
            exfalso
            rcases keyLt_cotrans z _ hbr y with h1 | h1
            · rw [keyLt_asym y z hk] at h1
              exact Bool.false_ne_true h1
            · rw [hstep] at h1
              exact Bool.false_ne_true h1
        · rw [minStep_neg hk] at hstep ⊢
          exact hstep
      · rcases List.mem_cons.mp hz' with hzy | hz''
        · -- the new element `z = y`
          subst hzy
          by_cases hk : keyLt z b = true
          · rw [minStep_pos hk] at hstep ⊢
            exact hstep
          · rw [minStep_neg hk] at hstep ⊢
            cases hyr : keyLt z (ys.foldl minStep b) with
            | false => rfl
            | true =>
              exfalso
              rcases keyLt_cotrans z _ hyr b with h1 | h1
              · exact hk h1
              · rw [hstep] at h1
                exact Bool.false_ne_true h1
        · exact hmin z (List.mem_cons.mpr (Or.inr hz''))

theorem pyMin_spec (l : List Str) (hne : l ≠ []) :
    ∃ c, pyMin l = some c ∧ c ∈ l ∧ ∀ y ∈ l, keyLt y c = false := by
  cases l with
  | nil => exact absurd rfl hne
  | cons x xs =>
    rcases pyMin_foldl_spec xs x with ⟨hmem, hmin⟩
    exact ⟨_, rfl, hmem, hmin⟩

theorem mem_insertSorted (x y : Str) (l : List Str) :
    y ∈ insertSorted x l ↔ y = x ∨ y ∈ l := by
  induction l with
  | nil => simp [insertSorted]
  | cons z zs ih =>
    by_cases h : ltStr z x = true
    · simp only [insertSorted, if_pos h, List.mem_cons, ih]
      tauto
    · simp only [insertSorted, if_neg h, List.mem_cons]

theorem mem_sortStr (y : Str) (l : List Str) : y ∈ sortStr l ↔ y ∈ l := by
  induction l with
  | nil => simp [sortStr]
  | cons x xs ih =>
    simp only [sortStr, mem_insertSorted, List.mem_cons, ih]

theorem sortStr_ne_nil (l : List Str) (h : l ≠ []) : sortStr l ≠ [] := by
  cases l with
  | nil => exact absurd rfl h
  | cons x xs =>
    intro hcontra
    have : x ∈ sortStr (x :: xs) := (mem_sortStr x _).mpr (List.mem_cons_self x xs)
    rw [hcontra] at this
    exact absurd this (List.not_mem_nil x)

/-- The name relation `_pick_best_subpackage` looks for first: the
candidate's lowercased name is a prefix of the module's lowercased last path
segment, or vice versa. -/
def nameRel (module_path sub : Str) : Bool :=
  isPre (toLowerS sub) (toLowerS (lastD (splitOnChar '/' (rstripSlash module_path)))) ||
  isPre (toLowerS (lastD (splitOnChar '/' (rstripSlash module_path)))) (toLowerS sub)

/-- C6: `resolve_go_module` with the module-proxy oracle as hypothesis: a
path that is itself a valid module at the version comes back unchanged with
no import override; otherwise the result is the first segment-truncation
(last segment dropped repeatedly, stopping before fewer than 3 segments
remain) accepted by the proxy, with the original input as import override;
and whenever the returned root differs from the input, the override is the
original input. -/
theorem claim_C6_resolve_go_module (proxyHas : Str → Str → Bool)
    (module_path version : Str) :
    (validate_go_module_version proxyHas module_path (normV version) = true →
      resolve_go_module proxyHas module_path version = (module_path, none)) ∧
    (validate_go_module_version proxyHas module_path (normV version) = false →
      resolve_go_module proxyHas module_path version =
        (match (walkCandidates (splitOnChar '/' module_path)).find?
            (fun c => validate_go_module_version proxyHas c (normV version)) with
         | some c => (c, some module_path)
         | none => (module_path, none))) ∧
    (∀ root ov, resolve_go_module proxyHas module_path version = (root, ov) →
      root ≠ module_path → ov = some module_path) := by
  refine ⟨?_, ?_, ?_⟩
  · intro h
    simp only [resolve_go_module]
    rw [if_pos h]
  · intro h
    simp only [resolve_go_module]
    rw [if_neg (by rw [h]; exact Bool.false_ne_true)]
    exact walkUp_eq_find _ _ _
  · intro root ov hres hne
    by_cases hval :
        validate_go_module_version proxyHas module_path (normV version) = true
    · simp only [resolve_go_module] at hres
      rw [if_pos hval] at hres
      injection hres with h1 h2
      exact absurd h1.symm hne
    · simp only [resolve_go_module] at hres
      rw [if_neg hval] at hres
      rw [walkUp_eq_find] at hres
      rcases hfind : (walkCandidates (splitOnChar '/' module_path)).find?
          (fun c => validate_go_module_version proxyHas c (normV version)) with
        _ | c
      · rw [hfind] at hres
        injection hres with h1 h2
        exact absurd h1.symm hne
      · rw [hfind] at hres
        injection hres with h1 h2
        exact h2.symm

/-- Witness for C6: the spec's scenario — module path
`google.golang.org/protobuf/proto` at `v1.36.0`, where only
`google.golang.org/protobuf` answers on the proxy, resolves to that root
with the original path as the import override. -/
theorem claim_C6_witness :
    validate_go_module_version
        (fun m ver => m == "google.golang.org/protobuf".data &&
          ver == "v1.36.0".data)
        "google.golang.org/protobuf/proto".data (normV "v1.36.0".data) =
      false ∧
    resolve_go_module
        (fun m ver => m == "google.golang.org/protobuf".data &&
          ver == "v1.36.0".data)
        "google.golang.org/protobuf/proto".data "v1.36.0".data =
      ("google.golang.org/protobuf".data,
        some "google.golang.org/protobuf/proto".data) := by
  constructor
  · decide
  · rw [(claim_C6_resolve_go_module
      (fun m ver => m == "google.golang.org/protobuf".data &&
        ver == "v1.36.0".data)
      "google.golang.org/protobuf/proto".data "v1.36.0".data).2.1 (by decide)]
    decide

/-- C7: `_pick_best_subpackage` on a non-empty candidate set: the choice is
some candidate; it satisfies the prefix-in-either-direction name relation
with the module's last path segment whenever any candidate does (the spec's
"prefix/suffix match" read as a prefix of one name by the other); otherwise
it is minimal under `(len, name)` — shortest first, alphabetical (code
point) tie-break. -/
theorem claim_C7_pick_best_subpackage (module_path : Str) (subs : List Str)
    (hne : subs ≠ []) :
    ∃ c, _pick_best_subpackage module_path subs = some c ∧ c ∈ subs ∧
      ((∃ s ∈ subs, nameRel module_path s = true) →
        nameRel module_path c = true) ∧
      ((∀ s ∈ subs, nameRel module_path s = false) →
        ∀ s ∈ subs, keyLt s c = false) := by
  simp only [_pick_best_subpackage]
  rcases hfind : (sortStr subs).find? (fun sub =>
      isPre (toLowerS sub)
        (toLowerS (lastD (splitOnChar '/' (rstripSlash module_path)))) ||
      isPre (toLowerS (lastD (splitOnChar '/' (rstripSlash module_path))))
        (toLowerS sub)) with _ | sub
  · have hnone := List.find?_eq_none.mp hfind
    obtain ⟨c, hc, hcmem, hcmin⟩ := pyMin_spec (sortStr subs)
      (sortStr_ne_nil subs hne)
    refine ⟨c, ?_, (mem_sortStr c subs).mp hcmem, ?_, ?_⟩
    · exact hc
    · rintro ⟨s, hs, hrel⟩
      exact absurd hrel (by
        have := hnone s ((mem_sortStr s subs).mpr hs)
        simpa [nameRel] using this)
    · intro _ s hs
      exact hcmin s ((mem_sortStr s subs).mpr hs)
  · have hp := List.find?_some hfind
    have hmem := (mem_sortStr sub subs).mp (List.mem_of_find?_eq_some hfind)
    refine ⟨sub, ?_, hmem, ?_, ?_⟩
    · rfl
    · intro _
      simpa [nameRel] using hp
    · intro hall
      have := hall sub hmem
      rw [show nameRel module_path sub =
        (isPre (toLowerS sub)
          (toLowerS (lastD (splitOnChar '/' (rstripSlash module_path)))) ||
        isPre (toLowerS (lastD (splitOnChar '/' (rstripSlash module_path))))
          (toLowerS sub)) from rfl] at this
      rw [hp] at this
      exact absurd this (by decide)

/-- Witness for C7: module `google.golang.org/protobuf` with candidate
subdirectories `types` and `proto` — the name relation selects `proto`. -/
theorem claim_C7_witness :
    (["types".data, "proto".data] ≠ ([] : List Str)) ∧
    ∃ c, _pick_best_subpackage "google.golang.org/protobuf".data
        ["types".data, "proto".data] = some c ∧
      c ∈ ["types".data, "proto".data] ∧
      ((∃ s ∈ ["types".data, "proto".data],
          nameRel "google.golang.org/protobuf".data s = true) →
        nameRel "google.golang.org/protobuf".data c = true) ∧
      ((∀ s ∈ ["types".data, "proto".data],
          nameRel "google.golang.org/protobuf".data s = false) →
        ∀ s ∈ ["types".data, "proto".data], keyLt s c = false) :=
  ⟨by decide, claim_C7_pick_best_subpackage "google.golang.org/protobuf".data
    ["types".data, "proto".data] (by decide)⟩

/-! ## LibraryConfig version pipeline (src/core/models.py, src/cli) -/

/-- The `Language` enum of src/core/models.py. -/
inductive Lang where
  | c
  | cpp
  | rust
  | fortran
deriving DecidableEq

/-- Python `str.strip()` (restricted to the ASCII whitespace that can occur
in version strings). -/
def pyStrip (s : Str) : Str :=
  ((s.dropWhile Char.isWhitespace).reverse.dropWhile Char.isWhitespace).reverse

/-- The `version` field after pydantic validation: a single string or a
list of strings. -/
inductive VersionField where
  | one (v : Str)
  | many (vs : List Str)
deriving DecidableEq

/-- `LibraryConfig.validate_version`: a comma-separated string becomes the
list of its stripped non-empty pieces (`none` models the raised
`ValueError` when no piece survives); any other string is stripped and kept
single. -/
def validate_version (v : Str) : Option VersionField :=
  if ',' ∈ v then
    let versions := ((splitOnChar ',' v).map pyStrip).filter (fun s => !s.isEmpty)
    if versions.isEmpty then none else some (.many versions)
  else some (.one (pyStrip v))

/-- `LibraryConfig.get_versions`. -/
def get_versions : VersionField → List Str
  | .one v => [v]
  | .many vs => vs

/-- The slice of `LibraryConfig` the version-normalization core reads and
writes.  `target_pfx` models the model's `target_prefix` field. -/
structure ConfigState where
  language : Lang
  github_url : Option Str
  version : VersionField
  target_pfx : Option Str
deriving DecidableEq

/-- Python truthiness of an optional string (`None` and `""` are falsy). -/
def pyTruthy : Option Str → Bool
  | none => false
  | some s => !s.isEmpty

/-- One iteration of the `for version in versions` loop of
`normalize_versions_with_git_lookup`: accumulates
`(normalized_versions, target_prefix, missing_versions)`. -/
def normStep (tagExists : Str → Bool) (url : Str)
    (acc : List Str × Option Str × List Str) (version : Str) :
    List Str × Option Str × List Str :=
  let r := determine_version_format tagExists url version
  (acc.1 ++ [r.1],
   if pyTruthy r.2.1 then r.2.1 else acc.2.1,
   acc.2.2 ++ (if r.2.2 then [] else [version]))

/-- `LibraryConfig.normalize_versions_with_git_lookup`: normalizes every
version in input order, unifies the prefix, updates the state, and returns
it with the list of missing versions. -/
def normalize_versions_with_git_lookup (tagExists : Str → Bool)
    (st : ConfigState) : ConfigState × List Str :=
  match st.github_url with
  | none => (st, [])
  | some url =>
    let acc := (get_versions st.version).foldl (normStep tagExists url)
      ([], none, [])
    let newVersion := match acc.1 with
      | [nv] => VersionField.one nv
      | l => VersionField.many l
    ({ st with
        version := newVersion,
        target_pfx := if pyTruthy acc.2.1 then acc.2.1 else st.target_pfx },
      acc.2.2)

/-- `LibraryConfig.validate_versions_and_exit_on_missing`: Rust skips git
validation; otherwise missing versions cause `exit(1)`, modelled as
`Except.error` carrying the printed list of missing versions. -/
def validate_versions_and_exit_on_missing (tagExists : Str → Bool)
    (st : ConfigState) : Except (List Str) ConfigState :=
  if st.language = Lang.rust then .ok st
  else
    let r := normalize_versions_with_git_lookup tagExists st
    if r.2.isEmpty then .ok r.1 else .error r.2

/-- How a request reaches the CLI entry point `main` (src/cli/main.py):
through the interactive prompts, or through the `--lang`, `--lib`, `--ver` flag
path that skips them. -/
inductive RequestMode where
  | interactive
  | flags
deriving DecidableEq

/-- The per-request flow of the CLI (src/cli/main.py).  On the flag path
(main.py lines 768-811) a non-Rust config calls
`normalize_versions_with_git_lookup()` at line 807 and DISCARDS the
returned missing-version list — no exit, no error — before the handlers
run; a Rust config skips normalization.  On the interactive path,
`ask_library_questions` (src/cli/questions.py lines 221-241) inlines the
same check as `validate_versions_and_exit_on_missing`: a non-empty missing
list causes `exit(1)` before any handler runs.  Whenever a flow returns a
config, the handlers then mutate the catalogue/properties files,
abstracted as `applyChanges` on an arbitrary file-state type. -/
def process_library_request {σ : Type} (mode : RequestMode)
    (tagExists : Str → Bool) (st : ConfigState)
    (applyChanges : ConfigState → σ → σ) (files : σ) :
    Except (List Str) σ :=
  match mode with
  | .flags =>
    if st.language = Lang.rust then .ok (applyChanges st files)
    else
      let r := normalize_versions_with_git_lookup tagExists st
      .ok (applyChanges r.1 files)
  | .interactive =>
    match validate_versions_and_exit_on_missing tagExists st with
    | .error missing => .error missing
    | .ok st2 => .ok (applyChanges st2 files)

/-- The existence flag `determine_version_format` reports for one version. -/
def versionFound (tagExists : Str → Bool) (url version : Str) : Bool :=
  (determine_version_format tagExists url version).2.2

theorem normStep_foldl_missing (tagExists : Str → Bool) (url : Str) :
    ∀ (vs : List Str) (acc : List Str × Option Str × List Str),
      (vs.foldl (normStep tagExists url) acc).2.2 =
        acc.2.2 ++ vs.filter (fun v => !(versionFound tagExists url v)) := by
  intro vs
  induction vs with
  | nil => intro acc; simp
  | cons v vs ih =>
    intro acc
    rw [List.foldl_cons, ih]
    cases hfound : versionFound tagExists url v with
    | true =>
      have : (determine_version_format tagExists url v).2.2 = true := hfound
      simp [normStep, this, List.filter_cons, hfound]
    | false =>
      have : (determine_version_format tagExists url v).2.2 = false := hfound
      simp [normStep, this, List.filter_cons, hfound]

/-- The target-prefix component `determine_version_format` emits is always
absent or the literal `"v"`. -/
theorem determine_pfx_cases (tagExists : Str → Bool) (url v : Str) :
    (determine_version_format tagExists url v).2.1 = none ∨
      (determine_version_format tagExists url v).2.1 = some ['v'] := by
  unfold determine_version_format
  split_ifs <;> simp

theorem normStep_foldl_pfx (tagExists : Str → Bool) (url : Str) :
    ∀ (vs : List Str) (acc : List Str × Option Str × List Str),
      (acc.2.1 = some ['v'] ∨
        ∃ v ∈ vs, (determine_version_format tagExists url v).2.1 = some ['v']) →
      (vs.foldl (normStep tagExists url) acc).2.1 = some ['v'] := by
  intro vs
  induction vs with
  | nil =>
    intro acc h
    rcases h with h | ⟨v, hv, _⟩
    · exact h
    · exact absurd hv (List.not_mem_nil v)
  | cons v vs ih =>
    intro acc h
    rw [List.foldl_cons]
    apply ih
    rcases h with h | ⟨w, hw, hwp⟩
    · left
      rcases determine_pfx_cases tagExists url v with hp | hp
      · simp [normStep, hp, pyTruthy, h]
      · simp [normStep, hp, pyTruthy]
    · rcases List.mem_cons.mp hw with rfl | hw'
      · left
        simp [normStep, hwp, pyTruthy]
      · right
        exact ⟨w, hw', hwp⟩

/-- Counterexample to C2 as stated: on the `--lang`, `--lib`, `--ver` flag path
(src/cli/main.py line 807) the missing-version list is discarded, so a
request `"1.0,2.0"` with `"2.0"` unverified does NOT fail: the handlers
run and the files are mutated (`0` becomes `1`) despite the filter of
unverified versions being non-empty. -/
theorem claim_C2_counterexample :
    (get_versions (VersionField.many ["1.0".data, "2.0".data])).filter
        (fun v => !(versionFound
          (fun t => t == "v1.0".data || t == "1.0".data)
          "https://github.com/acme/widget".data v)) = ["2.0".data] ∧
    process_library_request RequestMode.flags
        (fun t => t == "v1.0".data || t == "1.0".data)
        ⟨Lang.c, some "https://github.com/acme/widget".data,
          VersionField.many ["1.0".data, "2.0".data], none⟩
        (fun _ n => n + 1) (0 : Nat) =
      .ok 1 := by
  refine ⟨by decide, by rfl⟩

/-- C2 (amended): on the interactive flow, a comma-separated version string
is split into stripped non-empty pieces, each resolved independently in
input order; if any piece fails the existence check the request errors out
before `applyChanges` ever touches the files, and the error lists exactly
the unverified versions.  The flag path gives no such guarantee, see the
counterexample. -/
theorem claim_C2_interactive_missing_abort {σ : Type}
    (tagExists : Str → Bool) (lang : Lang) (url vstr : Str)
    (vf : VersionField) (applyChanges : ConfigState → σ → σ) (files : σ)
    (hlang : lang ≠ Lang.rust) (hcomma : ',' ∈ vstr)
    (hvf : validate_version vstr = some vf)
    (hmiss : (get_versions vf).filter
      (fun v => !(versionFound tagExists url v)) ≠ []) :
    vf = VersionField.many
        (((splitOnChar ',' vstr).map pyStrip).filter (fun s => !s.isEmpty)) ∧
    process_library_request RequestMode.interactive tagExists
        ⟨lang, some url, vf, none⟩ applyChanges files =
      .error ((get_versions vf).filter
        (fun v => !(versionFound tagExists url v))) := by
  constructor
  · unfold validate_version at hvf
    rw [if_pos hcomma] at hvf
    by_cases hempty : (((splitOnChar ',' vstr).map pyStrip).filter
        (fun s => !s.isEmpty)).isEmpty = true
    · rw [if_pos hempty] at hvf
      exact absurd hvf (by simp)
    · rw [if_neg hempty] at hvf
      exact (Option.some_inj.mp hvf).symm
  · have hmissing :
        (normalize_versions_with_git_lookup tagExists
          ⟨lang, some url, vf, none⟩).2 =
          (get_versions vf).filter (fun v => !(versionFound tagExists url v)) := by
      simp only [normalize_versions_with_git_lookup]
      rw [normStep_foldl_missing]
      simp
    unfold process_library_request validate_versions_and_exit_on_missing
    simp only []
    rw [if_neg (by simpa using hlang)]
    rw [hmissing.symm] at hmiss
    rw [if_neg (by simpa [List.isEmpty_iff] using hmiss)]
    rw [hmissing]

/-- Witness for C2: the spec's scenario on the interactive flow — request
`"1.0,2.0"` where only `"1.0"` exists: the request aborts with an error
naming only `"2.0"`. -/
theorem claim_C2_witness :
    validate_version "1.0,2.0".data =
      some (VersionField.many ["1.0".data, "2.0".data]) ∧
    process_library_request RequestMode.interactive
        (fun t => t == "v1.0".data || t == "1.0".data)
        ⟨Lang.c, some "https://github.com/acme/widget".data,
          VersionField.many ["1.0".data, "2.0".data], none⟩
        (fun _ n => n + 1) (0 : Nat) =
      .error ["2.0".data] := by
  constructor
  · decide
  · have h := (claim_C2_interactive_missing_abort
      (fun t => t == "v1.0".data || t == "1.0".data) Lang.c
      "https://github.com/acme/widget".data "1.0,2.0".data
      (VersionField.many ["1.0".data, "2.0".data]) (fun _ n => n + 1)
      (0 : Nat) (by decide) (by decide) (by decide) (by decide)).2
    rw [h]
    rfl

/-- C8: prefix unification — if any version of the request individually
resolves with the `"v"` prefix, the whole request's recorded target prefix
is `"v"`, even if other members did not individually require it. -/
theorem claim_C8_prefix_unified (tagExists : Str → Bool) (st : ConfigState)
    (url : Str) (hurl : st.github_url = some url)
    (hex : ∃ v ∈ get_versions st.version,
      (determine_version_format tagExists url v).2.1 = some ['v']) :
    (normalize_versions_with_git_lookup tagExists st).1.target_pfx =
      some ['v'] := by
  have hpfx := normStep_foldl_pfx tagExists url (get_versions st.version)
    ([], none, []) (Or.inr hex)
  simp only [normalize_versions_with_git_lookup, hurl]
  rw [hpfx]
  simp [pyTruthy]

/-- Witness for C8: versions `1.0` (bare tag exists) and `2.0` (only
`v2.0` exists): the unified target prefix is `"v"`. -/
theorem claim_C8_witness :
    (∃ v ∈ get_versions (VersionField.many ["1.0".data, "2.0".data]),
      (determine_version_format (fun t => t == "v2.0".data || t == "1.0".data)
        "https://github.com/acme/widget".data v).2.1 = some ['v']) ∧
    (normalize_versions_with_git_lookup
        (fun t => t == "v2.0".data || t == "1.0".data)
        ⟨Lang.c, some "https://github.com/acme/widget".data,
          VersionField.many ["1.0".data, "2.0".data], none⟩).1.target_pfx =
      some ['v'] :=
  ⟨⟨"2.0".data, by decide, by decide⟩,
    claim_C8_prefix_unified (fun t => t == "v2.0".data || t == "1.0".data)
      ⟨Lang.c, some "https://github.com/acme/widget".data,
        VersionField.many ["1.0".data, "2.0".data], none⟩
      "https://github.com/acme/widget".data rfl
      ⟨"2.0".data, by decide, by decide⟩⟩

/-! ## CatalogueLookup: `check_existing_library_config`
(src/core/models.py) -/

/-- Python `s.endswith(suf)`. -/
def endsWith (suf s : Str) : Bool := isPre suf.reverse s.reverse

/-- `lib_url == repo_url` for one entry (a missing `url` never equals a
string). -/
def urlMatches (repo_url : Str) (e : LibEntry) : Bool :=
  match e.url with
  | some u => u == repo_url
  | none => false

/-- `lib_repo and repo_url.endswith(f"/{lib_repo}")` for one entry (an
absent or empty `repo` field is falsy). -/
def repoSuffixMatches (repo_url : Str) (e : LibEntry) : Bool :=
  match e.repo with
  | some r => !r.isEmpty && endsWith ('/' :: r) repo_url
  | none => false

/--
Shallow embedding of the traversal of
`check_existing_library_config(repo_url, library_id, ...)` over the parsed
`libraries` mapping, given as an ordered association list
(ecosystem name ↦ ordered dict-shaped entries; non-dict values, which the
source skips, are not modelled).  Per language section the key lookup
`library_id in lang_libs` runs first; then the entry loop returns the first
entry whose `url` equals the origin or whose `repo` is a suffix match.
-/
def check_existing_library_config (repo_url library_id : Str)
    (catalogue : List (Str × List (Str × LibEntry))) : Option LibEntry :=
  match catalogue with
  | [] => none
  | (_, entries) :: rest =>
    match (entries.find? (fun kv => kv.1 == library_id)).map
        (fun kv => kv.2) with
    | some e => some e
    | none =>
      match (entries.find? (fun kv =>
          urlMatches repo_url kv.2 || repoSuffixMatches repo_url kv.2)).map
          (fun kv => kv.2) with
      | some e => some e
      | none => check_existing_library_config repo_url library_id rest

/-- All entries of all ecosystem sections, in traversal order. -/
def sectionsEntries :
    List (Str × List (Str × LibEntry)) → List (Str × LibEntry)
  | [] => []
  | s :: rest => s.2 ++ sectionsEntries rest

/-- The lookup as claim C4 words it: an identifier-key match anywhere in
the catalogue takes precedence over an exact-URL match anywhere, which
takes precedence over a repo-suffix match anywhere. -/
def find_entry_claimed (repo_url library_id : Str)
    (catalogue : List (Str × List (Str × LibEntry))) : Option LibEntry :=
  match ((sectionsEntries catalogue).find? (fun kv => kv.1 == library_id)).map
      (fun kv => kv.2) with
  | some e => some e
  | none =>
    match ((sectionsEntries catalogue).find?
        (fun kv => urlMatches repo_url kv.2)).map (fun kv => kv.2) with
    | some e => some e
    | none =>
      ((sectionsEntries catalogue).find?
        (fun kv => repoSuffixMatches repo_url kv.2)).map (fun kv => kv.2)

/-- A two-section catalogue separating the two lookups: the first section
holds an entry whose `url` equals the origin, the second holds the entry
keyed by the identifier. -/
def c4Catalogue : List (Str × List (Str × LibEntry)) :=
  [("c".data,
    [("other".data,
      ⟨some "https://github.com/acme/widget".data, none, none, none⟩)]),
   ("cpp".data,
    [("mylib".data, ⟨none, none, some "github".data, none⟩)])]

/-- Counterexample to C4 as stated: on `c4Catalogue` the code returns the
first section's URL-matching entry, not the later section's
identifier-keyed entry, so identifier-key matches do NOT take precedence
over URL matches from earlier sections. -/
theorem claim_C4_counterexample :
    check_existing_library_config "https://github.com/acme/widget".data
        "mylib".data c4Catalogue =
      some ⟨some "https://github.com/acme/widget".data, none, none, none⟩ ∧
    find_entry_claimed "https://github.com/acme/widget".data "mylib".data
        c4Catalogue =
      some ⟨none, none, some "github".data, none⟩ ∧
    check_existing_library_config "https://github.com/acme/widget".data
        "mylib".data c4Catalogue ≠
      find_entry_claimed "https://github.com/acme/widget".data "mylib".data
        c4Catalogue := by
  refine ⟨by decide, by decide, by decide⟩

/-- The lookup as the code actually ranks matches: per ecosystem section in
catalogue order — inside a section the identifier-keyed entry wins, else
the first entry matching by exact URL or repo suffix; an earlier section's
URL/repo match beats a later section's key match. -/
def find_entry_amended (repo_url library_id : Str)
    (catalogue : List (Str × List (Str × LibEntry))) : Option LibEntry :=
  catalogue.findSome? (fun sec =>
    ((sec.2.find? (fun kv => kv.1 == library_id)).map (fun kv => kv.2)).orElse
      (fun _ =>
        (sec.2.find? (fun kv =>
          urlMatches repo_url kv.2 || repoSuffixMatches repo_url kv.2)).map
          (fun kv => kv.2)))

/-- C4 (amended): `check_existing_library_config` equals the per-section
precedence lookup `find_entry_amended` on every catalogue. -/
theorem claim_C4_amended_per_section (repo_url library_id : Str)
    (catalogue : List (Str × List (Str × LibEntry))) :
    check_existing_library_config repo_url library_id catalogue =
      find_entry_amended repo_url library_id catalogue := by
  induction catalogue with
  | nil => rfl
  | cons sec rest ih =>
    obtain ⟨name, entries⟩ := sec
    simp only [check_existing_library_config, find_entry_amended,
      List.findSome?_cons] at ih ⊢
    cases hkey : (entries.find? (fun kv => kv.1 == library_id)).map
        (fun kv => kv.2) with
    | some e => rfl
    | none =>
      simp only [Option.orElse]
      cases hurl : (entries.find? (fun kv =>
          urlMatches repo_url kv.2 || repoSuffixMatches repo_url kv.2)).map
          (fun kv => kv.2) with
      | some e => rfl
      | none => exact ih

/-! ## PropertiesMerger: block insertion before the tools section
(src/core/fortran_handler.py, src/core/go_handler.py) -/

/-- Position of the leftmost occurrence of `needle` in the text, the
embedding of `re.search` on a literal pattern (`match.start()`). -/
def firstMatchPos (needle : Str) : Str → Option Nat
  | [] => if needle.isEmpty then some 0 else none
  | c :: rest =>
    if isPre needle (c :: rest) then some 0
    else (firstMatchPos needle rest).map (· + 1)

/-- The literal text the pattern
`r"\n(#{33}\n#{33}\n# Installed tools)"` matches: the delimiter opening the
"Installed tools" section of a properties file. -/
def toolsMarker : Str :=
  "\n".data ++ List.replicate 33 '#' ++ "\n".data ++ List.replicate 33 '#' ++
    "\n# Installed tools".data

/-- Python `"\n".join(lines)`. -/
def joinNL (lines : List Str) : Str := List.intercalate ['\n'] lines

/-- The insertion step of `FortranHandler.update_fortran_properties`: splice
the generated block before the tools-section marker, or append it at
end-of-file when the marker is absent. -/
def fortran_insert_props (content : Str) (props : List Str) : Str :=
  match firstMatchPos toolsMarker content with
  | some i =>
    content.take i ++ '\n' :: (joinNL props ++ "\n\n".data) ++ content.drop i
  | none => content ++ "\n\n".data ++ joinNL props ++ ['\n']

/-- The new-library insertion step of `GoHandler.update_go_properties`:
splice before the tools-section marker, or ensure a trailing newline and
append at end-of-file when the marker is absent. -/
def go_insert_props (content : Str) (props : List Str) : Str :=
  match firstMatchPos toolsMarker content with
  | some i =>
    content.take i ++ '\n' :: (joinNL props ++ "\n\n".data) ++ content.drop i
  | none =>
    (if content.getLast? = some '\n' then content else content ++ ['\n']) ++
      '\n' :: (joinNL props ++ ['\n'])

theorem firstMatchPos_none_of_hasSub_false (needle hay : Str)
    (h : hasSub needle hay = false) : firstMatchPos needle hay = none := by
  induction hay with
  | nil =>
    simp only [hasSub] at h
    simp [firstMatchPos, h]
  | cons c rest ih =>
    simp only [hasSub, Bool.or_eq_false_iff] at h
    simp only [firstMatchPos, h.1, Bool.false_eq_true, if_false]
    rw [ih h.2]
    rfl

/-- C9: when the tools-section marker is nowhere in the properties text,
both the Fortran and the Go insertion paths append the generated block at
end-of-file (the original text stays as a prefix, the block follows) — and,
being total functions of the text, they never raise. -/
theorem claim_C9_insert_appends_at_eof (content : Str) (props : List Str)
    (habsent : hasSub toolsMarker content = false) :
    fortran_insert_props content props =
      content ++ "\n\n".data ++ joinNL props ++ ['\n'] ∧
    go_insert_props content props =
      (if content.getLast? = some '\n' then content else content ++ ['\n']) ++
        '\n' :: (joinNL props ++ ['\n']) ∧
    isPre content (fortran_insert_props content props) = true ∧
    isPre content (go_insert_props content props) = true := by
  have hnone := firstMatchPos_none_of_hasSub_false toolsMarker content habsent
  refine ⟨?_, ?_, ?_, ?_⟩
  · simp only [fortran_insert_props, hnone]
  · simp only [go_insert_props, hnone]
  · simp only [fortran_insert_props, hnone]
    exact (isPre_iff _ _).2
      ⟨"\n\n".data ++ joinNL props ++ ['\n'], by simp [List.append_assoc]⟩
  · simp only [go_insert_props, hnone]
    by_cases h : content.getLast? = some '\n'
    · rw [if_pos h]
      exact (isPre_iff _ _).2 ⟨'\n' :: (joinNL props ++ ['\n']), rfl⟩
    · rw [if_neg h]
      exact (isPre_iff _ _).2
        ⟨'\n' :: '\n' :: (joinNL props ++ ['\n']), by simp [List.append_assoc]⟩

/-- Witness for C9: a small properties text with no tools marker — the
Fortran path appends the generated block at end-of-file. -/
theorem claim_C9_witness :
    hasSub toolsMarker "libs=zlib\n".data = false ∧
    fortran_insert_props "libs=zlib\n".data ["libs.x.name=x".data] =
      "libs=zlib\n".data ++ "\n\n".data ++ joinNL ["libs.x.name=x".data] ++
        ['\n'] :=
  ⟨by decide,
    (claim_C9_insert_appends_at_eof "libs=zlib\n".data ["libs.x.name=x".data]
      (by decide)).1⟩

/-! ## PropertiesMerger: `update_properties_libs_line`
(src/core/library_utils.py) -/

/-- Fuelled core of Python `str.replace(old, new)`: leftmost,
non-overlapping, scanning left to right.  Each step consumes at least one
character (`old ≠ []` in the match branch), so the text's length bounds the
recursion and serves as structural fuel. -/
def replaceAllFuel (old new : Str) : Nat → Str → Str
  | 0, s => s
  | _ + 1, [] => []
  | fuel + 1, c :: rest =>
    if old ≠ [] ∧ isPre old (c :: rest) = true then
      new ++ replaceAllFuel old new fuel ((c :: rest).drop old.length)
    else c :: replaceAllFuel old new fuel rest

/-- Python `s.replace(old, new)` on character lists (an empty `old` leaves
the text unchanged; the source only ever replaces a non-empty matched
line). -/
def replaceAll (old new s : Str) : Str := replaceAllFuel old new s.length s

/-- Python `s.split("\n")`, the line decomposition `re.MULTILINE` anchors
`^`/`$` on. -/
def splitLines : Str → List Str
  | [] => [[]]
  | c :: rest =>
    if c = '\n' then [] :: splitLines rest
    else
      match splitLines rest with
      | [] => [[c]]
      | l :: ls => (c :: l) :: ls

/-- The characters of the key token `"libs="` of the pattern
`r"^libs=(.*)$"`. -/
def libsKey : Str := ['l', 'i', 'b', 's', '=']

/-- The first line matched by `re.search(r"^libs=(.*)$", content,
re.MULTILINE)` — the whole match `group(0)`; its `group(1)` is
`(·.drop 5)`. -/
def firstLibsLine (content : Str) : Option Str :=
  (splitLines content).find? (fun l => isPre libsKey l)

/-- Shallow embedding of `update_properties_libs_line(content, library_id)`:
if a `libs=` line exists and the identifier is not a substring of its value,
every occurrence of that line's text is rewritten with the identifier
appended after a colon (Python `content.replace`); otherwise the text is
returned unchanged. -/
def update_properties_libs_line (content library_id : Str) : Str :=
  match firstLibsLine content with
  | none => content
  | some l =>
    if hasSub library_id (l.drop 5) then content
    else replaceAll l (l ++ ':' :: library_id) content

/-- Number of (possibly overlapping) occurrence positions of `needle` in a
text — the formal reading of "contains the identifier exactly once". -/
def countSub (needle : Str) : Str → Nat
  | [] => if needle.isEmpty then 1 else 0
  | c :: rest => (if isPre needle (c :: rest) then 1 else 0) + countSub needle rest

/-! ### Fuel invariance and unfolding equations for `replaceAll` -/

theorem replaceAllFuel_fuel_irrel (old new : Str) :
    ∀ (f1 : Nat), ∀ (f2 : Nat) (s : Str), s.length ≤ f1 → s.length ≤ f2 →
      replaceAllFuel old new f1 s = replaceAllFuel old new f2 s := by
  intro f1
  induction f1 with
  | zero =>
    intro f2 s h1 _
    have hs : s = [] := List.length_eq_zero.mp (Nat.le_zero.mp h1)
    subst hs
    cases f2 with
    | zero => rfl
    | succ m => rfl
  | succ n ih =>
    intro f2 s h1 h2
    cases s with
    | nil =>
      cases f2 with
      | zero => rfl
      | succ m => rfl
    | cons c rest =>
      cases f2 with
      | zero => simp at h2
      | succ m =>
        simp only [replaceAllFuel]
        by_cases hmatch : old ≠ [] ∧ isPre old (c :: rest) = true
        · rw [if_pos hmatch, if_pos hmatch]
          congr 1
          apply ih
          · have hlen : old.length ≥ 1 := by
              cases hold : old with
              | nil => exact absurd hold hmatch.1
              | cons _ _ => simp
            simp only [List.length_drop, List.length_cons]
            simp only [List.length_cons] at h1
            omega
          · have hlen : old.length ≥ 1 := by
              cases hold : old with
              | nil => exact absurd hold hmatch.1
              | cons _ _ => simp
            simp only [List.length_drop, List.length_cons]
            simp only [List.length_cons] at h2
            omega
        · rw [if_neg hmatch, if_neg hmatch]
          congr 1
          apply ih
          · simp only [List.length_cons] at h1
            omega
          · simp only [List.length_cons] at h2
            omega

theorem replaceAll_nil (old new : Str) : replaceAll old new [] = [] := rfl

theorem replaceAll_cons_pos (old new : Str) (c : Char) (rest : Str)
    (hold : old ≠ []) (hp : isPre old (c :: rest) = true) :
    replaceAll old new (c :: rest) =
      new ++ replaceAll old new ((c :: rest).drop old.length) := by
  have hlen : old.length ≥ 1 := by
    cases h : old with
    | nil => exact absurd h hold
    | cons _ _ => simp
  simp only [replaceAll, List.length_cons, replaceAllFuel]
  rw [if_pos ⟨hold, hp⟩]
  congr 1
  apply replaceAllFuel_fuel_irrel
  · simp only [List.length_drop, List.length_cons]
    omega
  · exact Nat.le_refl _

theorem replaceAll_cons_neg (old new : Str) (c : Char) (rest : Str)
    (h : ¬(old ≠ [] ∧ isPre old (c :: rest) = true)) :
    replaceAll old new (c :: rest) = c :: replaceAll old new rest := by
  simp only [replaceAll, List.length_cons, replaceAllFuel]
  rw [if_neg h]

/-- `replace` maps the pattern itself to the replacement. -/
theorem replaceAll_self (old new : Str) (hold : old ≠ []) :
    replaceAll old new old = new := by
  cases old with
  | nil => exact absurd rfl hold
  | cons c rest =>
    rw [replaceAll_cons_pos (c :: rest) new c rest (by simp) (isPre_refl _)]
    rw [List.drop_length, replaceAll_nil, List.append_nil]

/-! ### Lines of a text versus `replace` -/

theorem isPre_trans (a b c : Str) (h1 : isPre a b = true)
    (h2 : isPre b c = true) : isPre a c = true := by
  rcases (isPre_iff a b).1 h1 with ⟨t1, rfl⟩
  rcases (isPre_iff _ c).1 h2 with ⟨t2, rfl⟩
  exact (isPre_iff _ _).2 ⟨t1 ++ t2, by simp⟩

theorem isPre_head (a b : Char) (as bs : Str)
    (h : isPre (a :: as) (b :: bs) = true) : a = b := by
  simp only [isPre, Bool.and_eq_true, beq_iff_eq] at h
  exact h.1

theorem splitLines_ne_nil (s : Str) : splitLines s ≠ [] := by
  cases s with
  | nil => simp [splitLines]
  | cons c rest =>
    simp only [splitLines]
    by_cases h : c = '\n'
    · simp [h]
    · rw [if_neg h]
      cases hsl : splitLines rest <;> simp

theorem mem_splitLines_no_newline (s : Str) :
    ∀ l ∈ splitLines s, '\n' ∉ l := by
  induction s with
  | nil =>
    intro l hl
    simp only [splitLines, List.mem_singleton] at hl
    subst hl
    simp
  | cons c rest ih =>
    intro l hl
    simp only [splitLines] at hl
    by_cases h : c = '\n'
    · rw [if_pos h] at hl
      rcases List.mem_cons.mp hl with rfl | hl'
      · simp
      · exact ih l hl'
    · rw [if_neg h] at hl
      cases hsl : splitLines rest with
      | nil => exact absurd hsl (splitLines_ne_nil rest)
      | cons m ms =>
        simp only [hsl] at hl
        rcases List.mem_cons.mp hl with rfl | hl'
        · intro hmem
          rcases List.mem_cons.mp hmem with h' | h'
          · exact h h'.symm
          · exact ih m (by rw [hsl]; exact List.mem_cons_self m ms) h'
        · exact ih l (by rw [hsl]; exact List.mem_cons.mpr (Or.inr hl'))

theorem splitLines_no_newline (s : Str) (h : '\n' ∉ s) :
    splitLines s = [s] := by
  induction s with
  | nil => rfl
  | cons c rest ih =>
    have hc : c ≠ '\n' := fun hcn => h (List.mem_cons.mpr (Or.inl hcn.symm))
    simp only [splitLines]
    rw [if_neg hc, ih (fun hx => h (List.mem_cons.mpr (Or.inr hx)))]

theorem splitLines_append_newline (a b : Str) (ha : '\n' ∉ a) :
    splitLines (a ++ '\n' :: b) = a :: splitLines b := by
  induction a with
  | nil => simp [splitLines]
  | cons c as ih =>
    have hc : c ≠ '\n' := fun hcn => ha (List.mem_cons.mpr (Or.inl hcn.symm))
    rw [List.cons_append]
    rw [show splitLines (c :: (as ++ '\n' :: b)) =
      (if c = '\n' then [] :: splitLines (as ++ '\n' :: b)
       else match splitLines (as ++ '\n' :: b) with
        | [] => [[c]]
        | l :: ls => (c :: l) :: ls) from rfl]
    rw [if_neg hc, ih (fun hx => ha (List.mem_cons.mpr (Or.inr hx)))]

theorem first_newline_split (s : Str) (h : '\n' ∈ s) :
    ∃ a b, s = a ++ '\n' :: b ∧ '\n' ∉ a := by
  induction s with
  | nil => exact absurd h (List.not_mem_nil _)
  | cons c rest ih =>
    by_cases hc : c = '\n'
    · exact ⟨[], rest, by rw [hc]; rfl, by simp⟩
    · have hrest : '\n' ∈ rest := by
        rcases List.mem_cons.mp h with h' | h'
        · exact absurd h'.symm hc
        · exact h'
      obtain ⟨a, b, hab, hna⟩ := ih hrest
      refine ⟨c :: a, b, by rw [hab]; rfl, ?_⟩
      intro hx
      rcases List.mem_cons.mp hx with h' | h'
      · exact hc h'.symm
      · exact hna h'

theorem replaceAll_mem_aux (old new : Str) :
    ∀ n (s : Str), s.length ≤ n →
      ∀ x ∈ replaceAll old new s, x ∈ s ∨ x ∈ new := by
  intro n
  induction n with
  | zero =>
    intro s hlen x hx
    have hs : s = [] := List.length_eq_zero.mp (Nat.le_zero.mp hlen)
    subst hs
    rw [replaceAll_nil] at hx
    exact absurd hx (List.not_mem_nil x)
  | succ n ih =>
    intro s hlen x hx
    cases s with
    | nil =>
      rw [replaceAll_nil] at hx
      exact absurd hx (List.not_mem_nil x)
    | cons c rest =>
      simp only [List.length_cons] at hlen
      by_cases hmatch : old ≠ [] ∧ isPre old (c :: rest) = true
      · rw [replaceAll_cons_pos _ _ _ _ hmatch.1 hmatch.2] at hx
        rcases List.mem_append.mp hx with h | h
        · right; exact h
        · have holdlen : old.length ≥ 1 := by
            cases h' : old with
            | nil => exact absurd h' hmatch.1
            | cons _ _ => simp
          rcases ih ((c :: rest).drop old.length)
              (by simp only [List.length_drop, List.length_cons]; omega) x h
            with h' | h'
          · left; exact List.mem_of_mem_drop h'
          · right; exact h'
      · rw [replaceAll_cons_neg _ _ _ _ hmatch] at hx
        rcases List.mem_cons.mp hx with rfl | h
        · left; exact List.mem_cons_self _ _
        · rcases ih rest (by omega) x h with h' | h'
          · left; exact List.mem_cons.mpr (Or.inr h')
          · right; exact h'

theorem replaceAll_mem (old new s : Str) (x : Char)
    (hx : x ∈ replaceAll old new s) : x ∈ s ∨ x ∈ new :=
  replaceAll_mem_aux old new s.length s (Nat.le_refl _) x hx

theorem replaceAll_cons_newline (old new b : Str) (holdn : '\n' ∉ old) :
    replaceAll old new ('\n' :: b) = '\n' :: replaceAll old new b := by
  apply replaceAll_cons_neg
  rintro ⟨h1, h2⟩
  cases hold : old with
  | nil => exact h1 hold
  | cons o os =>
    rw [hold] at h2
    have := isPre_head o '\n' os b h2
    rw [hold, this] at holdn
    exact holdn (List.mem_cons_self _ _)

theorem replaceAll_append_newline_aux (old new : Str) (hold : old ≠ [])
    (holdn : '\n' ∉ old) :
    ∀ n (a : Str), a.length ≤ n → ∀ b : Str,
      replaceAll old new (a ++ '\n' :: b) =
        replaceAll old new a ++ '\n' :: replaceAll old new b := by
  intro n
  induction n with
  | zero =>
    intro a hlen b
    have ha : a = [] := List.length_eq_zero.mp (Nat.le_zero.mp hlen)
    subst ha
    rw [List.nil_append, replaceAll_nil, List.nil_append,
      replaceAll_cons_newline old new b holdn]
  | succ n ih =>
    intro a hlen b
    cases a with
    | nil =>
      rw [List.nil_append, replaceAll_nil, List.nil_append,
        replaceAll_cons_newline old new b holdn]
    | cons c as =>
      simp only [List.length_cons] at hlen
      have holdlen : old.length ≥ 1 := by
        cases h' : old with
        | nil => exact absurd h' hold
        | cons _ _ => simp
      by_cases hmatch : isPre old (c :: (as ++ '\n' :: b)) = true
      · -- a match at the head: it cannot reach past the newline
        rcases (isPre_iff _ _).1 hmatch with ⟨t, ht⟩
        have hLsplit : (c :: as) ++ '\n' :: b = old ++ t := ht
        have h1 : ((c :: as) ++ '\n' :: b).take old.length = old := by
          rw [hLsplit, List.take_append_eq_append_take, List.take_length,
            Nat.sub_self, List.take_zero, List.append_nil]
        have hle : old.length ≤ (c :: as).length := by
          by_contra hgt
          push_neg at hgt
          apply holdn
          rw [← h1, List.take_append_eq_append_take]
          apply List.mem_append.mpr
          right
          have hpos : 0 < old.length - (c :: as).length := by omega
          cases hd : old.length - (c :: as).length with
          | zero => omega
          | succ k =>
            rw [List.take_succ_cons]
            exact List.mem_cons_self _ _
        have htake : (c :: as).take old.length = old := by
          have h2 := h1
          rw [List.take_append_eq_append_take,
            show old.length - (c :: as).length = 0 from by omega,
            List.take_zero, List.append_nil] at h2
          exact h2
        have hsplit : c :: as = old ++ (c :: as).drop old.length := by
          conv_lhs => rw [← List.take_append_drop old.length (c :: as)]
          rw [htake]
        have hpre2 : isPre old (c :: as) = true :=
          (isPre_iff _ _).2 ⟨(c :: as).drop old.length, hsplit⟩
        rw [show (c :: as) ++ '\n' :: b = c :: (as ++ '\n' :: b) from rfl]
        rw [replaceAll_cons_pos old new c (as ++ '\n' :: b) hold hmatch]
        rw [replaceAll_cons_pos old new c as hold hpre2]
        have hdrop : (c :: (as ++ '\n' :: b)).drop old.length =
            (c :: as).drop old.length ++ '\n' :: b := by
          rw [show c :: (as ++ '\n' :: b) = (c :: as) ++ '\n' :: b from rfl]
          rw [List.drop_append_eq_append_drop,
            show old.length - (c :: as).length = 0 from by omega,
            List.drop_zero]
        rw [hdrop]
        rw [ih ((c :: as).drop old.length)
          (by simp only [List.length_drop, List.length_cons]; omega) b]
        simp [List.append_assoc]
      · -- no match at the head on either side
        have hmatch2 : ¬ isPre old (c :: as) = true := by
          intro hp
          exact hmatch (isPre_append old (c :: as) ('\n' :: b) hp)
        rw [show (c :: as) ++ '\n' :: b = c :: (as ++ '\n' :: b) from rfl]
        rw [replaceAll_cons_neg old new c (as ++ '\n' :: b)
          (fun hc => hmatch hc.2)]
        rw [replaceAll_cons_neg old new c as (fun hc => hmatch2 hc.2)]
        rw [ih as (by omega) b]
        rfl

theorem replaceAll_append_newline (old new : Str) (hold : old ≠ [])
    (holdn : '\n' ∉ old) (a b : Str) :
    replaceAll old new (a ++ '\n' :: b) =
      replaceAll old new a ++ '\n' :: replaceAll old new b :=
  replaceAll_append_newline_aux old new hold holdn a.length a (Nat.le_refl _) b

theorem splitLines_replaceAll_aux (old new : Str) (hold : old ≠ [])
    (holdn : '\n' ∉ old) (hnewn : '\n' ∉ new) :
    ∀ n (s : Str), s.length ≤ n →
      splitLines (replaceAll old new s) =
        (splitLines s).map (replaceAll old new) := by
  intro n
  induction n with
  | zero =>
    intro s hlen
    have hs : s = [] := List.length_eq_zero.mp (Nat.le_zero.mp hlen)
    subst hs
    rw [replaceAll_nil]
    rfl
  | succ n ih =>
    intro s hlen
    by_cases hmem : '\n' ∈ s
    · obtain ⟨a, b, rfl, ha⟩ := first_newline_split s hmem
      have hb : b.length ≤ n := by
        simp only [List.length_append, List.length_cons] at hlen
        omega
      rw [replaceAll_append_newline old new hold holdn a b]
      rw [splitLines_append_newline a b ha]
      have hra : '\n' ∉ replaceAll old new a := by
        intro hx
        rcases replaceAll_mem old new a '\n' hx with h | h
        · exact ha h
        · exact hnewn h
      rw [splitLines_append_newline _ _ hra]
      rw [List.map_cons]
      congr 1
      exact ih b hb
    · rw [splitLines_no_newline s hmem]
      have hrs : '\n' ∉ replaceAll old new s := by
        intro hx
        rcases replaceAll_mem old new s '\n' hx with h | h
        · exact hmem h
        · exact hnewn h
      rw [splitLines_no_newline _ hrs]
      rfl

theorem splitLines_replaceAll (old new : Str) (hold : old ≠ [])
    (holdn : '\n' ∉ old) (hnewn : '\n' ∉ new) (s : Str) :
    splitLines (replaceAll old new s) =
      (splitLines s).map (replaceAll old new) :=
  splitLines_replaceAll_aux old new hold holdn hnewn s.length s (Nat.le_refl _)

/-! ### The rewrite keeps non-`libs=` lines non-`libs=` -/

theorem isPre_cons_iff (a : Char) (as : Str) (b : Char) (bs : Str) :
    isPre (a :: as) (b :: bs) = true ↔ a = b ∧ isPre as bs = true := by
  simp [isPre]

/-- Rewriting occurrences of a `libs=`-prefixed `old` with a
`'l'`-headed `new` cannot make a suffix of the key `"libs="` appear as a
prefix where none was: lifted over all truncations `libsKey.drop j`,
`j ≤ 4`, to make the induction go through. -/
theorem replaceAll_key_lift (old new : Str) (hold : isPre libsKey old = true)
    (t0 : Str) (hnew : new = 'l' :: t0) :
    ∀ n (s : Str), s.length ≤ n → ∀ j, j ≤ 4 →
      isPre (libsKey.drop j) (replaceAll old new s) = true →
      isPre (libsKey.drop j) s = true := by
  have holdne : old ≠ [] := by
    rcases (isPre_iff _ _).1 hold with ⟨t, rfl⟩
    simp [libsKey]
  intro n
  induction n with
  | zero =>
    intro s hlen j hj hpre
    have hs : s = [] := List.length_eq_zero.mp (Nat.le_zero.mp hlen)
    subst hs
    rw [replaceAll_nil] at hpre
    interval_cases j <;> exact absurd hpre (by decide)
  | succ n ih =>
    intro s hlen j hj hpre
    cases s with
    | nil =>
      rw [replaceAll_nil] at hpre
      interval_cases j <;> exact absurd hpre (by decide)
    | cons c rest =>
      simp only [List.length_cons] at hlen
      by_cases hmatch : isPre old (c :: rest) = true
      · rw [replaceAll_cons_pos old new c rest holdne hmatch] at hpre
        rw [hnew] at hpre
        interval_cases j
        · exact isPre_trans libsKey old (c :: rest) hold hmatch
        · exact absurd ((isPre_cons_iff _ _ _ _).1 hpre).1 (by decide)
        · exact absurd ((isPre_cons_iff _ _ _ _).1 hpre).1 (by decide)
        · exact absurd ((isPre_cons_iff _ _ _ _).1 hpre).1 (by decide)
        · exact absurd ((isPre_cons_iff _ _ _ _).1 hpre).1 (by decide)
      · rw [replaceAll_cons_neg old new c rest (fun hc => hmatch hc.2)] at hpre
        interval_cases j
        · rcases (isPre_cons_iff _ _ _ _).1 hpre with ⟨hc, htail⟩
          exact (isPre_cons_iff _ _ _ _).2
            ⟨hc, ih rest (by omega) 1 (by omega) htail⟩
        · rcases (isPre_cons_iff _ _ _ _).1 hpre with ⟨hc, htail⟩
          exact (isPre_cons_iff _ _ _ _).2
            ⟨hc, ih rest (by omega) 2 (by omega) htail⟩
        · rcases (isPre_cons_iff _ _ _ _).1 hpre with ⟨hc, htail⟩
          exact (isPre_cons_iff _ _ _ _).2
            ⟨hc, ih rest (by omega) 3 (by omega) htail⟩
        · rcases (isPre_cons_iff _ _ _ _).1 hpre with ⟨hc, htail⟩
          exact (isPre_cons_iff _ _ _ _).2
            ⟨hc, ih rest (by omega) 4 (by omega) htail⟩
        · rcases (isPre_cons_iff _ _ _ _).1 hpre with ⟨hc, _⟩
          exact (isPre_cons_iff _ _ _ _).2 ⟨hc, rfl⟩

theorem find?_map_of_first (P : Str → Bool) (g : Str → Str)
    (hg : ∀ x, P (g x) = true → P x = true) :
    ∀ (L : List Str) (l : Str), L.find? P = some l → P (g l) = true →
      (L.map g).find? P = some (g l) := by
  intro L
  induction L with
  | nil =>
    intro l h
    simp [List.find?] at h
  | cons x xs ih =>
    intro l hfind hPgl
    rw [List.map_cons]
    cases hx : P x with
    | true =>
      rw [List.find?_cons_of_pos _ hx] at hfind
      injection hfind with h1
      subst h1
      rw [List.find?_cons_of_pos _ hPgl]
    | false =>
      rw [List.find?_cons_of_neg _
        (by rw [hx]; exact Bool.false_ne_true)] at hfind
      have hgx : ¬ P (g x) = true := fun hp =>
        absurd (hg x hp) (by rw [hx]; exact Bool.false_ne_true)
      rw [List.find?_cons_of_neg _ hgx]
      exact ih l hfind hPgl

/-- After an identifier is appended to the first `libs=` line, that rewritten
line is again the first `libs=` line of the text. -/
theorem update_updates_libs_line (content id l : Str)
    (hfind : firstLibsLine content = some l)
    (hnotin : hasSub id (l.drop 5) = false) (hid : '\n' ∉ id) :
    update_properties_libs_line content id =
      replaceAll l (l ++ ':' :: id) content ∧
    firstLibsLine (update_properties_libs_line content id) =
      some (l ++ ':' :: id) := by
  have hP : isPre libsKey l = true := List.find?_some hfind
  have hmem : l ∈ splitLines content := List.mem_of_find?_eq_some hfind
  have hlnl : '\n' ∉ l := mem_splitLines_no_newline content l hmem
  have hlne : l ≠ [] := by
    rcases (isPre_iff _ _).1 hP with ⟨t, rfl⟩
    simp [libsKey]
  rcases (isPre_iff _ _).1 hP with ⟨t, hlt⟩
  have ht0 : l ++ ':' :: id = 'l' :: ((['i', 'b', 's', '='] ++ t) ++ ':' :: id) := by
    rw [hlt]
    rfl
  have hupd : update_properties_libs_line content id =
      replaceAll l (l ++ ':' :: id) content := by
    simp only [update_properties_libs_line, hfind]
    rw [if_neg (by rw [hnotin]; exact Bool.false_ne_true)]
  refine ⟨hupd, ?_⟩
  rw [hupd]
  have hnl' : '\n' ∉ l ++ ':' :: id := by
    intro hx
    rcases List.mem_append.mp hx with h | h
    · exact hlnl h
    · rcases List.mem_cons.mp h with h' | h'
      · exact absurd h' (by decide)
      · exact hid h'
  have hcomm := splitLines_replaceAll l (l ++ ':' :: id) hlne hlnl hnl' content
  have hgl : replaceAll l (l ++ ':' :: id) l = l ++ ':' :: id :=
    replaceAll_self _ _ hlne
  show ((splitLines (replaceAll l (l ++ ':' :: id) content)).find?
    (fun x => isPre libsKey x)) = some (l ++ ':' :: id)
  rw [hcomm]
  conv_rhs => rw [← hgl]
  apply find?_map_of_first (fun x => isPre libsKey x)
    (replaceAll l (l ++ ':' :: id)) ?_ (splitLines content) l hfind ?_
  · intro x hx
    exact replaceAll_key_lift l (l ++ ':' :: id) hP _ ht0 x.length x
      (Nat.le_refl _) 0 (by omega) hx
  · rw [hgl]
    exact isPre_append libsKey l (':' :: id) hP

/-- C3 (amended): on a text with a `libs=` line and a newline-free
identifier, running `update_properties_libs_line` a second time with the
same identifier is a no-op, and after the first run the `libs=` line
contains the identifier as a substring (the code's own containment notion).
The spec's scenario holds: `libs=zlib:fmt` plus `abseil` gives
`libs=zlib:fmt:abseil` and re-running leaves it unchanged — but "exactly
once" fails in general, see the counterexample. -/
theorem claim_C3_amended_idempotent (content id : Str)
    (hline : (firstLibsLine content).isSome = true) (hid : '\n' ∉ id) :
    update_properties_libs_line (update_properties_libs_line content id) id =
      update_properties_libs_line content id ∧
    ∃ l2, firstLibsLine (update_properties_libs_line content id) = some l2 ∧
      hasSub id (l2.drop 5) = true := by
  obtain ⟨l, hl⟩ := Option.isSome_iff_exists.mp hline
  by_cases hin : hasSub id (l.drop 5) = true
  · have hupd : update_properties_libs_line content id = content := by
      simp only [update_properties_libs_line, hl]
      rw [if_pos hin]
    rw [hupd]
    exact ⟨hupd, l, hl, hin⟩
  · have hin' : hasSub id (l.drop 5) = false := by
      cases h : hasSub id (l.drop 5)
      · rfl
      · exact absurd h hin
    obtain ⟨hupd, hfind2⟩ := update_updates_libs_line content id l hl hin' hid
    have hP : isPre libsKey l = true := List.find?_some hl
    rcases (isPre_iff _ _).1 hP with ⟨t, hlt⟩
    have hdrop5 : (l ++ ':' :: id).drop 5 = t ++ ':' :: id := by
      rw [hlt,
        show (libsKey ++ t) ++ ':' :: id = libsKey ++ (t ++ ':' :: id) from
          by simp [List.append_assoc]]
      exact List.drop_left libsKey (t ++ ':' :: id)
    have hcontains : hasSub id ((l ++ ':' :: id).drop 5) = true := by
      rw [hdrop5, show t ++ ':' :: id = (t ++ [':']) ++ id from by simp]
      exact hasSub_of_append_right id (t ++ [':'])
    constructor
    · set u := update_properties_libs_line content id with hu
      rw [show update_properties_libs_line u id =
        (match firstLibsLine u with
         | none => u
         | some l =>
           if hasSub id (l.drop 5) then u
           else replaceAll l (l ++ ':' :: id) u) from rfl]
      rw [hfind2]
      simp [hcontains]
    · exact ⟨l ++ ':' :: id, hfind2, hcontains⟩

/-- Counterexample to C3 as stated: on `libs=x:x` with identifier `x`, two
runs leave the text unchanged (the identifier is already "present" by the
substring check), yet the resulting `libs=` line contains the identifier
twice, not exactly once — so "calling it twice yields a libs= line
containing that identifier exactly once" fails. -/
theorem claim_C3_counterexample :
    ¬ (∀ content id : Str, (firstLibsLine content).isSome = true →
        (match firstLibsLine (update_properties_libs_line
            (update_properties_libs_line content id) id) with
         | some l2 => countSub id (l2.drop 5) = 1
         | none => False)) := by
  intro h
  have h2 := h "libs=x:x".data "x".data (by decide)
  rw [show firstLibsLine (update_properties_libs_line
      (update_properties_libs_line "libs=x:x".data "x".data) "x".data) =
      some "libs=x:x".data from by decide] at h2
  exact absurd h2 (by decide)

/-- Witness for C3: the spec's scenario — `libs=zlib:fmt` plus `abseil`
gives `libs=zlib:fmt:abseil`, the second run is a no-op, and the resulting
`libs=` line contains the identifier. -/
theorem claim_C3_witness :
    ('\n' ∉ "abseil".data) ∧
    update_properties_libs_line "libs=zlib:fmt".data "abseil".data =
      "libs=zlib:fmt:abseil".data ∧
    (update_properties_libs_line (update_properties_libs_line
        "libs=zlib:fmt".data "abseil".data) "abseil".data =
      update_properties_libs_line "libs=zlib:fmt".data "abseil".data ∧
     ∃ l2, firstLibsLine (update_properties_libs_line "libs=zlib:fmt".data
        "abseil".data) = some l2 ∧
       hasSub "abseil".data (l2.drop 5) = true) :=
  ⟨by decide, by decide,
    claim_C3_amended_idempotent "libs=zlib:fmt".data "abseil".data
      (by decide) (by decide)⟩

/-- C10: a text with no line beginning `libs=` is returned completely
unchanged — the identifier is silently not added anywhere and no error is
signalled (the function is total and hits its fall-through path). -/
theorem claim_C10_no_libs_line_unchanged (content id : Str)
    (h : ∀ l ∈ splitLines content, isPre libsKey l = false) :
    update_properties_libs_line content id = content := by
  have hnone : firstLibsLine content = none := by
    apply List.find?_eq_none.mpr
    intro x hx
    rw [h x hx]
    exact Bool.false_ne_true
  simp [update_properties_libs_line, hnone]

/-- Witness for C10: a properties text whose lines are `foo=1` and `bar=2`
is unchanged by an attempted `abseil` insertion. -/
theorem claim_C10_witness :
    (∀ l ∈ splitLines "foo=1\nbar=2".data, isPre libsKey l = false) ∧
    update_properties_libs_line "foo=1\nbar=2".data "abseil".data =
      "foo=1\nbar=2".data :=
  ⟨by decide,
    claim_C10_no_libs_line_unchanged "foo=1\nbar=2".data "abseil".data
      (by decide)⟩

end CeLibWizard
